import Mathlib

set_option maxRecDepth 40000

/-!
Verification of the SymbolGenerator object-file-to-header tool (src/main.c).

The C program is shallowly embedded over byte lists (`List Nat`, each byte
`< 256` in well-formed inputs).  Files are byte lists; `fread` at a known
offset becomes `readAt`; multi-byte little-endian struct fields become
`rd16`/`rd32`/`rd64`; C strings become the bytes up to the first NUL
(`cstr`).  Header-generation helpers work on `List Char` since they only
manipulate text.
-/

/-- Byte of a list at index `i`, 0 past the end (only used under bounds
established by the surrounding checks, mirroring in-bounds C reads). -/
def byteAt (l : List Nat) (i : Nat) : Nat := l.getD i 0

/-- Little-endian 16-bit read at byte offset `o`. -/
def rd16 (l : List Nat) (o : Nat) : Nat := byteAt l o + 256 * byteAt l (o + 1)

/-- Little-endian 32-bit read at byte offset `o`. -/
def rd32 (l : List Nat) (o : Nat) : Nat := rd16 l o + 65536 * rd16 l (o + 2)

/-- Little-endian 64-bit read at byte offset `o`. -/
def rd64 (l : List Nat) (o : Nat) : Nat :=
  rd32 l o + 4294967296 * rd32 l (o + 4)

/-- `fread` of exactly `n` bytes at offset `off`: all-or-nothing, as the C
code treats any return value other than the full item count as failure. -/
def readAt (file : List Nat) (off n : Nat) : Option (List Nat) :=
  if off + n ≤ file.length then some ((file.drop off).take n) else none

/-- The bytes of a NUL-terminated C string starting at the head of `l`. -/
def cstr (l : List Nat) : List Nat := l.takeWhile (fun x => x != 0)

/-- Reinterpret a 16-bit unsigned value as C `int16_t` (the
`(int16_t)sym.st_shndx` / `SectionNumber` casts). -/
def toInt16 (n : Nat) : Int := if n < 32768 then (n : Int) else (n : Int) - 65536

/-- ASCII bytes of a string literal. -/
def strB (s : String) : List Nat := s.data.map Char.toNat

/-- The fixed marker that gates symbol retention, `"_binary_"`
(main.c:317 and main.c:533). -/
def markerBytes : List Nat := strB "_binary_"

/-- The 4 ELF magic bytes 0x7F 'E' 'L' 'F'. -/
def elfMagic : List Nat := [127, 69, 76, 70]

/-- An extracted symbol record (struct `Symbol`, main.c:89-95).  `name` is
the byte string; `value` the 32-bit value; `sectionIdx` the signed 16-bit
section number; `storageClass` the 8-bit storage class. -/
structure SymRec where
  name : List Nat
  value : Nat
  sectionIdx : Int
  storageClass : Nat
deriving DecidableEq, Repr

/-- The synthesized placeholder name `sprintf(symName, "?offset=%u", offset)`
(main.c:510). -/
def placeholderName (n : Nat) : List Nat := strB "?offset=" ++ strB (Nat.repr n)

/-- Short COFF name: 8 name-field bytes, trailing spaces trimmed
(main.c:516-529), then read as a C string (stops at the first NUL). -/
def trimName (l : List Nat) : List Nat :=
  cstr ((l.reverse.dropWhile (fun x => x == 32)).reverse)

/-- Name resolution for one 18-byte COFF symbol record `b`
(main.c:499-530): first 4 bytes zero selects the long form, which indexes
the string table when present and in range and otherwise synthesizes a
placeholder; nonzero selects the trimmed inline short name. -/
def resolveCoffName (stOpt : Option (List Nat)) (sz : Nat) (b : List Nat) :
    List Nat :=
  if rd32 b 0 = 0 then
    match stOpt with
    | some st =>
      if rd32 b 4 < sz then cstr (st.drop (rd32 b 4))
      else placeholderName (rd32 b 4)
    | none => placeholderName (rd32 b 4)
  else trimName (b.take 8)

/-- One COFF symbol record's contribution (main.c:532-540). -/
def mkCoffSymbol (b nm : List Nat) : SymRec :=
  { name := nm, value := rd32 b 8, sectionIdx := toInt16 (rd16 b 12),
    storageClass := byteAt b 16 }

/-- The COFF symbol loop (main.c:490-548).  `i` is both the loop counter
and the index of the next raw 18-byte record (they advance in lockstep:
the aux-record skip adds `NumberOfAuxSymbols` to the counter and seeks the
same number of records forward).  The fuel argument only bounds the
recursion; called with fuel `nsym` it never cuts the loop short because
`i` grows by at least one per iteration. -/
def coffLoop (file : List Nat) (stOpt : Option (List Nat))
    (sz ptr nsym : Nat) : Nat → Nat → List SymRec
  | 0, _ => []
  | fuel + 1, i =>
    if nsym ≤ i then []
    else
      match readAt file (ptr + i * 18) 18 with
      | none => []
      | some b =>
        let nm := resolveCoffName stOpt sz b
        let rest := coffLoop file stOpt sz ptr nsym fuel (i + 1 + byteAt b 17)
        if nm.take 8 = markerBytes then mkCoffSymbol b nm :: rest else rest

/-- The raw 18-byte records of every primary symbol the COFF loop visits,
in table order (the same traversal as `coffLoop`, before name resolution
and filtering). -/
def coffRecs (file : List Nat) (ptr nsym : Nat) : Nat → Nat → List (List Nat)
  | 0, _ => []
  | fuel + 1, i =>
    if nsym ≤ i then []
    else
      match readAt file (ptr + i * 18) 18 with
      | none => []
      | some b => b :: coffRecs file ptr nsym fuel (i + 1 + byteAt b 17)

/-- The marker filter and record-to-symbol step applied to one visited
COFF record (the body of main.c:532-540). -/
def coffEmit (stOpt : Option (List Nat)) (sz : Nat) (b : List Nat) :
    Option SymRec :=
  let nm := resolveCoffName stOpt sz b
  if nm.take 8 = markerBytes then some (mkCoffSymbol b nm) else none

/-- The resolved name of every primary record the COFF loop visits, in
table order and unfiltered: the source-symbol-table name sequence against
which the emitted sequence is compared. -/
def coffNames (file : List Nat) (stOpt : Option (List Nat))
    (sz ptr nsym fuel i : Nat) : List (List Nat) :=
  (coffRecs file ptr nsym fuel i).map (resolveCoffName stOpt sz)

/-- Everything `parse_coff` establishes before its symbol loop. -/
structure CoffParts where
  strTable : Option (List Nat)
  strSize : Nat
  ptr : Nat
  nsym : Nat
deriving DecidableEq, Repr

/-- The pre-loop phase of `parse_coff` (main.c:372-489): minimum-size and
ELF-magic rejection, the 20-byte header read, the symbol-count ceiling and
symbol-table-pointer sanity checks (the file size is compared through the
C `(uint32_t)fileSize` cast), the string-table-size read at
`PointerToSymbolTable + NumberOfSymbols*18` (32-bit arithmetic), and the
string-table read when the declared size exceeds its own 4 length bytes.
Any failure here fails the whole file. -/
def coffParts (file : List Nat) : Option CoffParts :=
  if file.length < 4 then none
  else if file.take 4 = elfMagic then none
  else if file.length < 20 then none
  else if 1000000 < rd32 file 12 then none
  else if file.length % 4294967296 ≤ rd32 file 8 then none
  else
    match readAt file ((rd32 file 8 + rd32 file 12 * 18) % 4294967296) 4 with
    | none => none
    | some szb =>
      if 4 < rd32 szb 0 then
        match readAt file ((rd32 file 8 + rd32 file 12 * 18) % 4294967296)
            (rd32 szb 0) with
        | none => none
        | some st => some ⟨some st, rd32 szb 0, rd32 file 8, rd32 file 12⟩
      else some ⟨none, rd32 szb 0, rd32 file 8, rd32 file 12⟩

/-- `parse_coff` (main.c:372-556): header phase, then the symbol loop. -/
def parse_coff (file : List Nat) : Option (List SymRec) :=
  (coffParts file).map fun p =>
    coffLoop file p.strTable p.strSize p.ptr p.nsym p.nsym 0

/-- Everything `parse_elf` establishes before its symbol loop: the file
offset of `.symtab`, the entry count `sh_size / sh_entsize`, and the
loaded `.strtab` contents. -/
structure ElfParts where
  symOff : Nat
  count : Nat
  strtab : List Nat
deriving DecidableEq, Repr

/-- The section-name scan (main.c:231-242): every section's name is read
from the section-header string table and the indices of the sections
named `.symtab` and `.strtab` are recorded, a later match overwriting an
earlier one. -/
def sectScan (shstr shb : List Nat) (shnum : Nat) : Option Nat × Option Nat :=
  (List.range shnum).foldl
    (fun acc i =>
      let nm := cstr (shstr.drop (rd32 shb (i * 64)))
      if nm = strB ".symtab" then (some i, acc.2)
      else if nm = strB ".strtab" then (acc.1, some i)
      else acc)
    (none, none)

/-- The pre-loop phase of `parse_elf` (main.c:127-291): the 64-byte header
read, magic/class/endianness/type validation, the section-header-table
read, the `e_shstrndx` bound check, the section-header string-table read,
the `.symtab`/`.strtab` scan, and the `.strtab` content read.  Any failure
here fails the whole file. -/
def elfParts (file : List Nat) : Option ElfParts :=
  match readAt file 0 64 with
  | none => none
  | some eh =>
    if eh.take 4 ≠ elfMagic then none
    else if byteAt eh 4 ≠ 2 then none
    else if byteAt eh 5 ≠ 1 then none
    else if rd16 eh 16 ≠ 1 then none
    else
      match readAt file (rd64 eh 40) (rd16 eh 60 * 64) with
      | none => none
      | some shb =>
        if rd16 eh 60 ≤ rd16 eh 62 then none
        else
          match readAt file (rd64 shb (rd16 eh 62 * 64 + 24))
              (rd64 shb (rd16 eh 62 * 64 + 32)) with
          | none => none
          | some shstr =>
            match sectScan shstr shb (rd16 eh 60) with
            | (some si, some ti) =>
              match readAt file (rd64 shb (ti * 64 + 24))
                  (rd64 shb (ti * 64 + 32)) with
              | none => none
              | some strt =>
                some ⟨rd64 shb (si * 64 + 24),
                  rd64 shb (si * 64 + 32) / rd64 shb (si * 64 + 56), strt⟩
            | _ => none

/-- The ELF symbol loop (main.c:294-325): one 24-byte `Elf64_Sym` read per
entry (a short read ends the loop), entries with name offset zero or at or
past the string-table size are skipped, and a surviving entry passing the
marker filter is emitted with its value cast to `uint32_t`, its section
index cast to `int16_t`, and storage class 0. -/
def elfLoop (file : List Nat) (symOff : Nat) (strtab : List Nat) :
    Nat → Nat → List SymRec
  | 0, _ => []
  | fuel + 1, i =>
    match readAt file (symOff + i * 24) 24 with
    | none => []
    | some b =>
      if rd32 b 0 = 0 then elfLoop file symOff strtab fuel (i + 1)
      else if strtab.length ≤ rd32 b 0 then elfLoop file symOff strtab fuel (i + 1)
      else
        let nm := cstr (strtab.drop (rd32 b 0))
        if nm.take 8 = markerBytes then
          ⟨nm, rd64 b 8 % 4294967296, toInt16 (rd16 b 6), 0⟩ ::
            elfLoop file symOff strtab fuel (i + 1)
        else elfLoop file symOff strtab fuel (i + 1)

/-- `parse_elf` (main.c:127-335): header phase, then the symbol loop over
`count` entries. -/
def parse_elf (file : List Nat) : Option (List SymRec) :=
  (elfParts file).map fun p => elfLoop file p.symOff p.strtab p.count 0

/-- Specification-level view of one ELF symbol-table entry, following
§4.3 step 5 of the design: skip an unreadable entry, an anonymous entry
(name offset zero), and an entry whose offset lies at or beyond the string
table's size; otherwise resolve the name, apply the marker filter, and
emit a SymRec with the value truncated to 32 bits, the section index
truncated to a signed 16-bit integer, and storage class 0. -/
def elfEntrySpec (file : List Nat) (symOff : Nat) (strtab : List Nat)
    (i : Nat) : Option SymRec :=
  match readAt file (symOff + i * 24) 24 with
  | none => none
  | some b =>
    if rd32 b 0 = 0 ∨ strtab.length ≤ rd32 b 0 then none
    else
      let nm := cstr (strtab.drop (rd32 b 0))
      if nm.take 8 = markerBytes then
        some ⟨nm, rd64 b 8 % 4294967296, toInt16 (rd16 b 6), 0⟩
      else none

/-- Specification-level view of one ELF entry's resolved name (no marker
filter): the source-symbol-table name sequence for order comparison. -/
def elfNameSpec (file : List Nat) (symOff : Nat) (strtab : List Nat)
    (i : Nat) : Option (List Nat) :=
  match readAt file (symOff + i * 24) 24 with
  | none => none
  | some b =>
    if rd32 b 0 = 0 ∨ strtab.length ≤ rd32 b 0 then none
    else some (cstr (strtab.drop (rd32 b 0)))

/-- The resolved names the ELF decoder considers, in table order. -/
def elfSourceNames (file : List Nat) : List (List Nat) :=
  match elfParts file with
  | none => []
  | some p => (List.range p.count).filterMap (elfNameSpec file p.symOff p.strtab)

/-- The resolved names the COFF decoder considers, in table order. -/
def coffSourceNames (file : List Nat) : List (List Nat) :=
  match coffParts file with
  | none => []
  | some p => coffNames file p.strTable p.strSize p.ptr p.nsym p.nsym 0

/-- `parse_object_file`'s format detection outcome (main.c:338-369). -/
inductive Route
  | toElf
  | toCoff
  | ioFail
deriving DecidableEq, Repr

/-- Format detection (main.c:347-368): read the first 4 bytes (failure
aborts the file), then dispatch on the ELF magic. -/
def detectRoute (file : List Nat) : Route :=
  if file.length < 4 then Route.ioFail
  else if file.take 4 = elfMagic then Route.toElf
  else Route.toCoff

/-- `parse_object_file` (main.c:338-369). -/
def parse_object_file (file : List Nat) : Option (List SymRec) :=
  match detectRoute file with
  | Route.toElf => parse_elf file
  | Route.toCoff => parse_coff file
  | Route.ioFail => none

/-! ## Header-generation layer (text level, `List Char`) -/

/-- `toupper` on one ASCII character (main.c:592-598). -/
def cUpper (c : Char) : Char :=
  if 97 ≤ c.toNat ∧ c.toNat ≤ 122 then Char.ofNat (c.toNat - 32) else c

/-- `to_uppercase` (main.c:592-598). -/
def upStr (l : List Char) : List Char := l.map cUpper

/-- Whether `needle` is an initial segment of `hay`. -/
def isPre : List Char → List Char → Bool
  | [], _ => true
  | _ :: _, [] => false
  | a :: as, b :: bs => a == b && isPre as bs

/-- `strstr` as a predicate: `needle` occurs contiguously in `hay`. -/
def occurs (needle : List Char) : List Char → Bool
  | [] => needle == []
  | c :: t => isPre needle (c :: t) || occurs needle t

/-- Whether `sfx` is a final segment of `l` ("the name ends in ..."). -/
def endsIn (sfx l : List Char) : Bool := isPre sfx.reverse l.reverse

/-- The declaration line emitted for one symbol name; the same
`strstr`-based branch appears in `generate_header` (main.c:635-651) and
`generate_combined_header` (main.c:740-755). -/
def declLine (name : List Char) : List Char :=
  if occurs "_size".data name then
    "extern const unsigned int ".data ++ name ++ ";".data
  else if occurs "_start".data name || occurs "_end".data name then
    "extern const unsigned char ".data ++ name ++ "[];".data
  else
    "extern const unsigned char ".data ++ name ++ "[];".data

/-- The text after the last `'_'` of `name` (`strrchr(name, '_') + 1`). -/
def afterLastUS (name : List Char) : List Char :=
  (name.reverse.takeWhile (fun c => c != '_')).reverse

/-- The convenience-define line for one symbol (main.c:656-669 and
main.c:781-794): skip the symbol when `strrchr` finds no underscore,
otherwise print `"%s_%s"` of the supplied prefix and the text after the
last underscore and upper-case the whole of it. -/
def defLine (mpfx name : List Char) : Option (List Char) :=
  if name.contains '_' then
    some ("#define ".data ++ upStr (mpfx ++ "_".data ++ afterLastUS name)
      ++ " ".data ++ name)
  else none

/-- The define block (main.c:653-671): emitted only under a non-empty
supplied prefix, one line per symbol that has an underscore. -/
def defBlock (mpfx : List Char) (names : List (List Char)) :
    List (List Char) :=
  if mpfx = [] then [] else names.filterMap (defLine mpfx)

/-- Text after the last occurrence of `c` (`strrchr(p, c) + 1`), the whole
string when `c` does not occur. -/
def afterLastChar (c : Char) (p : List Char) : List Char :=
  (p.reverse.takeWhile (fun x => x != c)).reverse

/-- The directory-stripping step of `basename` (main.c:806-809): the text
after the last `'/'`, or after the last `'\\'` only when no `'/'` occurs. -/
def codeStart (p : List Char) : List Char :=
  if p.contains '/' then afterLastChar '/' p
  else if p.contains '\\' then afterLastChar '\\' p
  else p

/-- The extension-stripping step of `basename` (main.c:811-816): truncate
at the last `'.'` exactly when the text from it to the end is `".o"` or
`".obj"`. -/
def stripExt (b : List Char) : List Char :=
  if b.contains '.' then
    let fromDot := '.' :: (b.reverse.takeWhile (fun x => x != '.')).reverse
    if fromDot = ".o".data ∨ fromDot = ".obj".data then
      ((b.reverse.dropWhile (fun x => x != '.')).drop 1).reverse
    else b
  else b

/-- `basename` (main.c:804-818). -/
def basename (p : List Char) : List Char := stripExt (codeStart p)

/-- Specification-level base-name start: the text after the last directory
separator, where both `'/'` and `'\\'` separate directories. -/
def specStart (p : List Char) : List Char :=
  (p.reverse.takeWhile (fun x => x != '/' && x != '\\')).reverse

/-- Specification-level extension strip: remove exactly one trailing
`".o"` or `".obj"`. -/
def specStripExt (b : List Char) : List Char :=
  if endsIn ".o".data b then b.take (b.length - 2)
  else if endsIn ".obj".data b then b.take (b.length - 4)
  else b

/-- Specification-level base name: strip any directory prefix, then one
trailing `.o`/`.obj` extension. -/
def specBasename (p : List Char) : List Char := specStripExt (specStart p)

/-! ## Concrete input files used by witnesses and counterexamples -/

/-- Little-endian byte encodings. -/
def le16 (n : Nat) : List Nat := [n % 256, n / 256 % 256]

def le32 (n : Nat) : List Nat := le16 (n % 65536) ++ le16 (n / 65536)

def le64 (n : Nat) : List Nat := le32 (n % 4294967296) ++ le32 (n / 4294967296)

/-- A 64-byte COFF object: 20-byte header (symbol table at 20, 2 symbols),
one short-named `_binary_` symbol, one long-named symbol whose
string-table offset 999 is out of range, and an 8-byte string table. -/
def coffFileA : List Nat :=
  (le16 0 ++ le16 0 ++ le32 0 ++ le32 20 ++ le32 2 ++ le16 0 ++ le16 0)
  ++ (strB "_binary_" ++ le32 7 ++ le16 1 ++ le16 0 ++ [6, 0])
  ++ (le32 0 ++ le32 999 ++ le32 0 ++ le16 0 ++ le16 0 ++ [0, 0])
  ++ (le32 8 ++ [95, 97, 0, 0])

/-- The `.strtab` contents of `elfFileA` (it doubles as the section-header
string table): `".symtab\0.strtab\0_binary_a\0"`. -/
def elfStrtabA : List Nat :=
  strB ".symtab" ++ [0] ++ strB ".strtab" ++ [0] ++ strB "_binary_a" ++ [0]

/-- A 242-byte relocatable 64-bit little-endian ELF object with two
sections: section 0 is `.symtab` (one 24-byte entry at file offset 192
naming `_binary_a`), section 1 is `.strtab` at offset 216, which also
serves as the section-header string table (`e_shstrndx = 1`). -/
def elfFileA : List Nat :=
  ([127] ++ strB "ELF" ++ [2, 1, 1, 0] ++ List.replicate 8 0)
  ++ le16 1 ++ le16 62 ++ le32 1 ++ le64 0 ++ le64 0 ++ le64 64 ++ le32 0
  ++ le16 64 ++ le16 0 ++ le16 0 ++ le16 64 ++ le16 2 ++ le16 1
  ++ (le32 0 ++ le32 2 ++ le64 0 ++ le64 0 ++ le64 192 ++ le64 24
      ++ le32 0 ++ le32 0 ++ le64 0 ++ le64 24)
  ++ (le32 8 ++ le32 3 ++ le64 0 ++ le64 0 ++ le64 216 ++ le64 26
      ++ le32 0 ++ le32 0 ++ le64 0 ++ le64 0)
  ++ (le32 16 ++ [0, 0] ++ le16 1 ++ le64 5 ++ le64 0)
  ++ elfStrtabA

/-- The string table of `coffFileA` (declared size 8, bytes `_a\0\0`
after the length field). -/
def coffStrTableA : List Nat := le32 8 ++ [95, 97, 0, 0]

/-- The pre-loop state `parse_coff` reaches on `coffFileA`. -/
def coffPartsOfA : CoffParts := ⟨some coffStrTableA, 8, 20, 2⟩

/-- The second (long-named, out-of-range offset 999) record of
`coffFileA`. -/
def coffRecBad : List Nat :=
  le32 0 ++ le32 999 ++ le32 0 ++ le16 0 ++ le16 0 ++ [0, 0]

/-- A 20-byte COFF header whose declared symbol count 2000000 exceeds the
sanity ceiling. -/
def coffBadHeader : List Nat :=
  le16 0 ++ le16 0 ++ le32 0 ++ le32 20 ++ le32 2000000 ++ le16 0 ++ le16 0


/-! ## Basic facts about the byte-level primitives -/

theorem readAt_eq_none_iff {file : List Nat} {o n : Nat} :
    readAt file o n = none ↔ file.length < o + n := by
  unfold readAt
  split_ifs with h <;> simp <;> omega

theorem readAt_none_mono {file : List Nat} {o o2 n : Nat}
    (h : readAt file o n = none) (hle : o ≤ o2) : readAt file o2 n = none := by
  rw [readAt_eq_none_iff] at h ⊢
  omega

theorem placeholderName_take8 (n : Nat) :
    (placeholderName n).take 8 = strB "?offset=" := by
  unfold placeholderName
  have h8 : (strB "?offset=").length = 8 := by decide
  rw [← h8, List.take_left]

theorem placeholderName_not_marker (n : Nat) :
    (placeholderName n).take 8 ≠ markerBytes := by
  rw [placeholderName_take8]
  decide

/-! ## The COFF loop as a filterMap over the visited records -/

theorem coffLoop_eq_filterMap (file : List Nat) (stOpt : Option (List Nat))
    (sz ptr nsym : Nat) : ∀ fuel i,
    coffLoop file stOpt sz ptr nsym fuel i =
      (coffRecs file ptr nsym fuel i).filterMap (coffEmit stOpt sz) := by
  intro fuel
  induction fuel with
  | zero => intro i; rfl
  | succ n ih =>
    intro i
    rw [coffLoop, coffRecs]
    split
    · rfl
    · cases h : readAt file (ptr + i * 18) 18 with
      | none => rfl
      | some b =>
        by_cases hc : (resolveCoffName stOpt sz b).take 8 = markerBytes <;>
          simp [coffEmit, List.filterMap_cons, ih, hc]

theorem coffEmit_marker {stOpt : Option (List Nat)} {sz : Nat}
    {b : List Nat} {s : SymRec} (h : coffEmit stOpt sz b = some s) :
    s.name.take 8 = markerBytes := by
  simp only [coffEmit] at h
  split at h
  · cases h
    assumption
  · cases h

theorem parse_coff_marker {file : List Nat} {syms : List SymRec}
    (h : parse_coff file = some syms) :
    ∀ s ∈ syms, s.name.take 8 = markerBytes := by
  unfold parse_coff at h
  cases hp : coffParts file with
  | none => rw [hp] at h; cases h
  | some p =>
    rw [hp] at h
    simp only [Option.map_some'] at h
    cases h
    intro s hs
    rw [coffLoop_eq_filterMap] at hs
    obtain ⟨b, _, hb⟩ := List.mem_filterMap.mp hs
    exact coffEmit_marker hb

theorem filterMap_coffEmit_names (stOpt : Option (List Nat)) (sz : Nat) :
    ∀ recs : List (List Nat),
    (recs.filterMap (coffEmit stOpt sz)).map SymRec.name =
      (recs.map (resolveCoffName stOpt sz)).filter
        (fun nm => nm.take 8 == markerBytes) := by
  intro recs
  induction recs with
  | nil => rfl
  | cons b t ih =>
    simp only [List.filterMap_cons, List.map_cons, List.filter_cons]
    by_cases hc : (resolveCoffName stOpt sz b).take 8 = markerBytes
    · simp [coffEmit, hc, mkCoffSymbol, ih]
    · simp [coffEmit, hc, ih]

/-! ## The ELF loop as a filterMap over the entry indices -/

theorem elfLoop_eq_filterMap (file : List Nat) (symOff : Nat)
    (strtab : List Nat) : ∀ fuel i,
    elfLoop file symOff strtab fuel i =
      (List.range' i fuel).filterMap (elfEntrySpec file symOff strtab) := by
  intro fuel
  induction fuel with
  | zero => intro i; rfl
  | succ n ih =>
    intro i
    rw [List.range'_succ, List.filterMap_cons, elfLoop]
    cases h : readAt file (symOff + i * 24) 24 with
    | none =>
      have hspec : elfEntrySpec file symOff strtab i = none := by
        unfold elfEntrySpec
        rw [h]
      rw [hspec]
      symm
      rw [List.filterMap_eq_nil_iff]
      intro j hj
      unfold elfEntrySpec
      have hj2 := List.mem_range'.mp hj
      have hnone : readAt file (symOff + j * 24) 24 = none := by
        apply readAt_none_mono h
        obtain ⟨k, _, rfl⟩ := hj2
        omega
      rw [hnone]
    | some b =>
      rw [ih]
      by_cases h0 : rd32 b 0 = 0
      · simp [elfEntrySpec, h, h0]
      · by_cases hob : strtab.length ≤ rd32 b 0
        · simp [elfEntrySpec, h, h0, hob]
        · by_cases hmk : (cstr (strtab.drop (rd32 b 0))).take 8 = markerBytes
          · simp [elfEntrySpec, h, h0, hob, hmk]
          · simp [elfEntrySpec, h, h0, hob, hmk]

theorem elfEntrySpec_fields {file : List Nat} {symOff : Nat}
    {strtab : List Nat} {i : Nat} {s : SymRec}
    (h : elfEntrySpec file symOff strtab i = some s) :
    s.name.take 8 = markerBytes ∧ s.storageClass = 0 ∧
      s.value < 4294967296 := by
  unfold elfEntrySpec at h
  cases hre : readAt file (symOff + i * 24) 24 with
  | none => rw [hre] at h; exact absurd h (by simp)
  | some b =>
    rw [hre] at h
    dsimp only at h
    by_cases h0 : rd32 b 0 = 0 ∨ strtab.length ≤ rd32 b 0
    · rw [if_pos h0] at h
      exact absurd h (by simp)
    · rw [if_neg h0] at h
      by_cases hmk : (cstr (strtab.drop (rd32 b 0))).take 8 = markerBytes
      · simp only [if_pos hmk] at h
        cases h
        exact ⟨hmk, rfl, Nat.mod_lt _ (by norm_num)⟩
      · simp only [if_neg hmk] at h
        exact absurd h (by simp)

theorem elf_names_filter (file : List Nat) (symOff : Nat)
    (strtab : List Nat) : ∀ L : List Nat,
    (L.filterMap (elfEntrySpec file symOff strtab)).map SymRec.name =
      (L.filterMap (elfNameSpec file symOff strtab)).filter
        (fun nm => nm.take 8 == markerBytes) := by
  intro L
  induction L with
  | nil => rfl
  | cons j t ih =>
    simp only [List.filterMap_cons]
    cases h : readAt file (symOff + j * 24) 24 with
    | none => simp [elfEntrySpec, elfNameSpec, h, ih]
    | some b =>
      by_cases h0 : rd32 b 0 = 0 ∨ strtab.length ≤ rd32 b 0
      · simp [elfEntrySpec, elfNameSpec, h, h0, ih]
      · by_cases hmk : (cstr (strtab.drop (rd32 b 0))).take 8 = markerBytes
        · simp [elfEntrySpec, elfNameSpec, h, h0, hmk, ih, List.filter_cons]
        · simp [elfEntrySpec, elfNameSpec, h, h0, hmk, ih, List.filter_cons]

/-! ## Facts about the COFF pre-loop phase -/

theorem coffParts_strTable_size {file : List Nat} {p : CoffParts}
    (h : coffParts file = some p) {st : List Nat}
    (hst : p.strTable = some st) : 4 < p.strSize := by
  unfold coffParts at h
  split_ifs at h
  split at h
  · cases h
  · rename_i szb hszb
    split at h
    · rename_i h4
      split at h
      · cases h
      · cases h
        exact h4
    · cases h
      simp at hst

/-! ## Text-level helper lemmas -/

theorem contains_iff_mem {α : Type} [BEq α] [LawfulBEq α] (l : List α)
    (a : α) : l.contains a = true ↔ a ∈ l := by
  unfold List.contains
  exact List.elem_iff

theorem cUpper_underscore : cUpper '_' = '_' := by decide

theorem upStr_append (a b : List Char) :
    upStr (a ++ b) = upStr a ++ upStr b := List.map_append cUpper a b

theorem isPre_iff (s : List Char) : ∀ l, isPre s l = true ↔ ∃ t, l = s ++ t := by
  induction s with
  | nil =>
    intro l
    simp [isPre]
  | cons a as ih =>
    intro l
    cases l with
    | nil => simp [isPre]
    | cons b bs =>
      rw [isPre]
      simp only [Bool.and_eq_true, beq_iff_eq, ih, List.cons_append,
        List.cons.injEq]
      constructor
      · rintro ⟨rfl, t, rfl⟩
        exact ⟨t, rfl, rfl⟩
      · rintro ⟨t, rfl, rfl⟩
        exact ⟨rfl, t, rfl⟩

theorem endsIn_iff (s l : List Char) : endsIn s l = true ↔ ∃ t, l = t ++ s := by
  unfold endsIn
  rw [isPre_iff]
  constructor
  · rintro ⟨t, ht⟩
    refine ⟨t.reverse, ?_⟩
    have h2 := congrArg List.reverse ht
    simpa using h2
  · rintro ⟨t, rfl⟩
    exact ⟨t.reverse, by simp⟩

theorem takeWhile_congr_of_all {α : Type} (p q : α → Bool) :
    ∀ l : List α, (∀ x ∈ l, p x = q x) → l.takeWhile p = l.takeWhile q := by
  intro l
  induction l with
  | nil => intro _; rfl
  | cons a t ih =>
    intro h
    have ha := h a (by simp)
    rw [List.takeWhile_cons, List.takeWhile_cons, ← ha]
    cases hpa : p a with
    | false => rfl
    | true => rw [ih (fun x hx => h x (List.mem_cons_of_mem a hx))]

theorem takeWhile_all {α : Type} (p : α → Bool) :
    ∀ l : List α, (∀ x ∈ l, p x = true) → l.takeWhile p = l := by
  intro l
  induction l with
  | nil => intro _; rfl
  | cons a t ih =>
    intro h
    rw [List.takeWhile_cons, if_pos (h a (by simp)),
      ih (fun x hx => h x (List.mem_cons_of_mem a hx))]

theorem takeWhile_slash_no_backslash :
    ∀ l : List Char, '\\' ∉ l.takeWhile (fun x => x != '/') →
      l.takeWhile (fun x => x != '/') =
        l.takeWhile (fun x => x != '/' && x != '\\') := by
  intro l
  induction l with
  | nil => intro _; rfl
  | cons a t ih =>
    intro h
    by_cases ha : a = '/'
    · subst ha
      simp [List.takeWhile_cons]
    · simp only [List.takeWhile_cons] at h ⊢
      rw [if_pos (by simp [ha])] at h
      have hab : a ≠ '\\' := by
        intro hc
        subst hc
        exact h (List.mem_cons_self _ _)
      have h2 : '\\' ∉ t.takeWhile (fun x => x != '/') := by
        intro hc
        exact h (List.mem_cons_of_mem a hc)
      rw [if_pos (by simp [ha]), if_pos (by simp [ha, hab]), ih h2]

theorem dropWhile_mem_cons {α : Type} [DecidableEq α] [BEq α] [LawfulBEq α]
    (c : α) : ∀ l : List α, c ∈ l →
      ∃ u, l.dropWhile (fun x => x != c) = c :: u := by
  intro l
  induction l with
  | nil => intro h; cases h
  | cons a t ih =>
    intro h
    by_cases ha : a = c
    · subst ha
      exact ⟨t, by simp [List.dropWhile_cons]⟩
    · have hct : c ∈ t := by
        cases List.mem_cons.mp h with
        | inl h2 => exact absurd h2.symm ha
        | inr h2 => exact h2
      obtain ⟨u, hu⟩ := ih hct
      exact ⟨u, by simp [List.dropWhile_cons, ha, hu]⟩

theorem dotO_data : ".o".data = ['.', 'o'] := rfl

theorem dotObj_data : ".obj".data = ['.', 'o', 'b', 'j'] := rfl

theorem tw_of_dotO (t : List Char) :
    ('.' :: ((t ++ ['.', 'o']).reverse.takeWhile (fun x => x != '.')).reverse)
      = ['.', 'o'] := by
  have h1 : ('o' != '.') = true := by decide
  have h2 : ('.' != '.') = false := by decide
  rw [List.reverse_append]
  simp [List.takeWhile_cons, h1, h2]

theorem tw_of_dotObj (t : List Char) :
    ('.' :: ((t ++ ['.', 'o', 'b', 'j']).reverse.takeWhile
      (fun x => x != '.')).reverse) = ['.', 'o', 'b', 'j'] := by
  have h1 : ('o' != '.') = true := by decide
  have h2 : ('b' != '.') = true := by decide
  have h3 : ('j' != '.') = true := by decide
  have h4 : ('.' != '.') = false := by decide
  rw [List.reverse_append]
  simp [List.takeWhile_cons, h1, h2, h3, h4]

theorem take_append_minus (u sfx : List Char) :
    (u ++ sfx).take ((u ++ sfx).length - sfx.length) = u := by
  rw [show (u ++ sfx).length - sfx.length = u.length by simp]
  exact List.take_left u sfx

theorem fromDot_suffix (b : List Char) (hdot : '.' ∈ b) :
    b = ((b.reverse.dropWhile (fun x => x != '.')).drop 1).reverse ++
      ('.' :: (b.reverse.takeWhile (fun x => x != '.')).reverse) := by
  obtain ⟨w, hw⟩ := dropWhile_mem_cons '.' b.reverse (List.mem_reverse.mpr hdot)
  have hsplit := List.takeWhile_append_dropWhile
    (fun x => x != '.') b.reverse
  rw [hw] at hsplit
  have hb := congrArg List.reverse hsplit
  simp only [List.reverse_append, List.reverse_cons, List.reverse_reverse]
    at hb
  rw [hw]
  simpa using hb.symm

theorem stripExt_eq (b : List Char) : stripExt b = specStripExt b := by
  by_cases hdot : b.contains '.' = true
  case neg =>
    unfold stripExt specStripExt
    have hno : ∀ sfx : List Char, '.' ∈ sfx →
        ¬ endsIn sfx b = true := by
      intro sfx hin hc
      obtain ⟨t, ht⟩ := (endsIn_iff _ _).mp hc
      apply hdot
      rw [contains_iff_mem, ht]
      exact List.mem_append_right t hin
    rw [if_neg hdot, if_neg (by rw [dotO_data]; exact hno _ (by decide)),
      if_neg (by rw [dotObj_data]; exact hno _ (by decide))]
  case pos =>
    have hmem : '.' ∈ b := (contains_iff_mem _ _).mp hdot
    have hu := fromDot_suffix b hmem
    unfold stripExt specStripExt
    rw [if_pos hdot]
    by_cases ho :
        ('.' :: (b.reverse.takeWhile (fun x => x != '.')).reverse) = ".o".data
        ∨ ('.' :: (b.reverse.takeWhile (fun x => x != '.')).reverse)
          = ".obj".data
    · rw [if_pos ho]
      rcases ho with ho | ho
      · have hb : b =
            ((b.reverse.dropWhile (fun x => x != '.')).drop 1).reverse
              ++ ".o".data := by
          rw [← ho]
          exact hu
        have hends : endsIn ".o".data b = true :=
          (endsIn_iff _ _).mpr ⟨_, hb⟩
        rw [if_pos hends]
        conv_rhs => rw [hb, dotO_data]
        exact (take_append_minus _ ['.', 'o']).symm
      · have hb : b =
            ((b.reverse.dropWhile (fun x => x != '.')).drop 1).reverse
              ++ ".obj".data := by
          rw [← ho]
          exact hu
        have hends2 : endsIn ".obj".data b = true :=
          (endsIn_iff _ _).mpr ⟨_, hb⟩
        have hends1 : ¬ endsIn ".o".data b = true := by
          intro hc
          obtain ⟨t, ht⟩ := (endsIn_iff _ _).mp hc
          rw [dotO_data] at ht
          have := tw_of_dotO t
          rw [← ht] at this
          rw [this] at ho
          rw [dotObj_data] at ho
          cases ho
        rw [if_neg hends1, if_pos hends2]
        conv_rhs => rw [hb, dotObj_data]
        exact (take_append_minus _ ['.', 'o', 'b', 'j']).symm
    · rw [if_neg ho]
      have ho1 : ¬ endsIn ".o".data b = true := by
        intro hc
        obtain ⟨t, ht⟩ := (endsIn_iff _ _).mp hc
        apply ho
        left
        rw [dotO_data] at ht ⊢
        rw [ht]
        exact tw_of_dotO t
      have ho2 : ¬ endsIn ".obj".data b = true := by
        intro hc
        obtain ⟨t, ht⟩ := (endsIn_iff _ _).mp hc
        apply ho
        right
        rw [dotObj_data] at ht ⊢
        rw [ht]
        exact tw_of_dotObj t
      rw [if_neg ho1, if_neg ho2]

theorem start_eq (p : List Char)
    (h : '/' ∈ p → '\\' ∉ afterLastChar '/' p) :
    codeStart p = specStart p := by
  unfold afterLastChar at h
  unfold codeStart specStart afterLastChar
  by_cases h1 : p.contains '/' = true
  · rw [if_pos h1]
    have hmem : '/' ∈ p := (contains_iff_mem p '/').mp h1
    have h2 := h hmem
    have h3 : '\\' ∉ p.reverse.takeWhile (fun x => x != '/') := by
      intro hx
      exact h2 (List.mem_reverse.mpr hx)
    rw [takeWhile_slash_no_backslash p.reverse h3]
  · rw [if_neg h1]
    have hnp : ∀ x ∈ p.reverse, x ≠ '/' := by
      intro x hx hc
      subst hc
      exact h1 ((contains_iff_mem p '/').mpr (List.mem_reverse.mp hx))
    by_cases h2 : p.contains '\\' = true
    · rw [if_pos h2]
      have hcong := takeWhile_congr_of_all (fun x => x != '\\')
        (fun x => x != '/' && x != '\\') p.reverse
        (fun x hx => by simp [hnp x hx])
      rw [hcong]
    · rw [if_neg h2]
      have hnb : ∀ x ∈ p.reverse, x ≠ '\\' := by
        intro x hx hc
        subst hc
        exact h2 ((contains_iff_mem p '\\').mpr (List.mem_reverse.mp hx))
      have hall := takeWhile_all (fun x => x != '/' && x != '\\') p.reverse
        (fun x hx => by simp [hnp x hx, hnb x hx])
      rw [hall, List.reverse_reverse]

/-! ## Claim theorems -/

/-- C1: the generator picks the `extern const unsigned int` declaration by
`strstr` substring containment, not by the `_size` suffix rule the
specification states (and that the code's own comment, "determine the type
by the suffix", documents): `_binary_icon_size_bin_start` does not end in
`_size`, yet its declaration line is the `unsigned int` one instead of the
`unsigned char ...[]` one the claim requires. -/
theorem decl_type_substring_divergence :
    declLine "_binary_icon_size_bin_start".data =
      "extern const unsigned int _binary_icon_size_bin_start;".data ∧
    endsIn "_size".data "_binary_icon_size_bin_start".data = false := by
  decide

/-- C4 (amended): with a non-empty prefix the define block carries exactly
one line per symbol name containing an underscore, namely
`#define <MACRO>_<SUFFIX> <name>` with the *entire* macro name — the
supplied prefix included — upper-cased, `<SUFFIX>` being the text after
the name's last underscore; a name with no underscore contributes no
line. -/
theorem define_lines_uppercased (mpfx name : List Char)
    (names : List (List Char)) (hm : mpfx ≠ []) :
    defBlock mpfx names = names.filterMap (defLine mpfx) ∧
    (name.contains '_' = true →
      defLine mpfx name = some ("#define ".data ++ upStr mpfx ++ '_' ::
        upStr (afterLastUS name) ++ " ".data ++ name)) ∧
    (name.contains '_' = false → defLine mpfx name = none) := by
  refine ⟨by unfold defBlock; rw [if_neg hm], ?_, ?_⟩
  · intro hc
    unfold defLine
    rw [if_pos hc]
    have h1 : "_".data = ['_'] := rfl
    rw [h1]
    congr 1
    rw [upStr_append, upStr_append]
    simp [upStr, cUpper_underscore]
  · intro hc
    unfold defLine
    rw [if_neg (by rw [hc]; simp)]

/-- C4 counterexample: with the lower-case supplied prefix `foo` the code
emits `#define FOO_START _binary_a_start` — the prefix is upper-cased too —
not the `#define foo_START _binary_a_start` the claim's
`#define <MACRO>_<SUFFIX> <name>` shape (prefix verbatim, only the suffix
upper-cased) prescribes. -/
theorem define_case_counterexample :
    defBlock "foo".data ["_binary_a_start".data] =
      ["#define FOO_START _binary_a_start".data] ∧
    "#define FOO_START _binary_a_start".data ≠
      "#define foo_START _binary_a_start".data := by
  decide

/-- C4 witness: prefix `FOO` and symbol `_binary_foo_bin_start` produce
exactly the specification's example line. -/
theorem define_lines_uppercased_witness :
    ("FOO".data ≠ ([] : List Char)) ∧
    defLine "FOO".data "_binary_foo_bin_start".data =
      some "#define FOO_START _binary_foo_bin_start".data := by
  refine ⟨by decide, ?_⟩
  have h := (define_lines_uppercased "FOO".data "_binary_foo_bin_start".data
    [] (by decide)).2.1 (by decide)
  rw [h]
  decide

/-- C5 (amended): base-name derivation strips the directory prefix and
exactly one trailing `.o`/`.obj` extension — leaving extensionless names
unchanged — for every path in which no backslash occurs after the last
forward slash; on such paths the code agrees with the specification-level
derivation that treats both `/` and `\` as directory separators. -/
theorem basename_strips_dir_and_ext (p : List Char)
    (h : '/' ∈ p → '\\' ∉ afterLastChar '/' p) :
    basename p = specBasename p := by
  unfold basename specBasename
  rw [start_eq p h, stripExt_eq]

/-- C5 counterexample: on the mixed-separator path `a/b\c.o` the code
keeps the `b\` directory component (it only strips up to the last `/`
because a `/` exists), so the result still contains a separator, while
stripping "any directory prefix" demands `c`. -/
theorem basename_mixed_separator_counterexample :
    basename "a/b\\c.o".data = "b\\c".data ∧
    specBasename "a/b\\c.o".data = "c".data ∧
    basename "a/b\\c.o".data ≠ specBasename "a/b\\c.o".data := by
  decide

/-- C5 witness: the specification's own example `/a/b/c.o`. -/
theorem basename_strips_dir_and_ext_witness :
    basename "/a/b/c.o".data = "c".data ∧
    specBasename "/a/b/c.o".data = "c".data := by
  have h := basename_strips_dir_and_ext "/a/b/c.o".data (by decide)
  exact ⟨by decide, by rw [← h]; decide⟩

/-- C2: every symbol either decoder outputs has its first 8 name bytes
equal to the `_binary_` marker, and the output's name sequence equals the
marker-filter of the source symbol table's resolved-name sequence, in
table order — so no non-matching symbol ever enters, and order is
preserved. -/
theorem decoder_filter_and_order (file : List Nat) (syms : List SymRec) :
    (parse_coff file = some syms →
      (∀ s ∈ syms, s.name.take 8 = markerBytes) ∧
      syms.map SymRec.name = (coffSourceNames file).filter
        (fun nm => nm.take 8 == markerBytes)) ∧
    (parse_elf file = some syms →
      (∀ s ∈ syms, s.name.take 8 = markerBytes) ∧
      syms.map SymRec.name = (elfSourceNames file).filter
        (fun nm => nm.take 8 == markerBytes)) := by
  constructor
  · intro h
    have hmk := parse_coff_marker h
    refine ⟨hmk, ?_⟩
    unfold parse_coff at h
    unfold coffSourceNames
    cases hp : coffParts file with
    | none => rw [hp] at h; cases h
    | some p =>
      rw [hp] at h
      simp only [Option.map_some'] at h
      cases h
      rw [coffLoop_eq_filterMap]
      unfold coffNames
      rw [filterMap_coffEmit_names]
  · intro h
    unfold parse_elf at h
    unfold elfSourceNames
    cases hp : elfParts file with
    | none => rw [hp] at h; cases h
    | some p =>
      rw [hp] at h
      simp only [Option.map_some'] at h
      cases h
      constructor
      · intro s hs
        rw [elfLoop_eq_filterMap] at hs
        obtain ⟨j, _, hj⟩ := List.mem_filterMap.mp hs
        exact (elfEntrySpec_fields hj).1
      · rw [elfLoop_eq_filterMap, ← List.range_eq_range', elf_names_filter]

/-- C2 witness: the theorem applied to the two concrete object files. -/
theorem decoder_filter_and_order_witness :
    (parse_coff coffFileA = some [⟨markerBytes, 7, 1, 6⟩] ∧
      (∀ s ∈ [(⟨markerBytes, 7, 1, 6⟩ : SymRec)],
        s.name.take 8 = markerBytes) ∧
      [(⟨markerBytes, 7, 1, 6⟩ : SymRec)].map SymRec.name =
        (coffSourceNames coffFileA).filter
          (fun nm => nm.take 8 == markerBytes)) ∧
    (parse_elf elfFileA = some [⟨strB "_binary_a", 5, 1, 0⟩] ∧
      (∀ s ∈ [(⟨strB "_binary_a", 5, 1, 0⟩ : SymRec)],
        s.name.take 8 = markerBytes) ∧
      [(⟨strB "_binary_a", 5, 1, 0⟩ : SymRec)].map SymRec.name =
        (elfSourceNames elfFileA).filter
          (fun nm => nm.take 8 == markerBytes)) := by
  constructor
  · exact ⟨by decide, (decoder_filter_and_order coffFileA _).1 (by decide)⟩
  · exact ⟨by decide, (decoder_filter_and_order elfFileA _).2 (by decide)⟩

/-- C6: the ELF decoder's output is exactly the per-entry specification
pass (an entry whose name offset is zero or lies at/beyond the string
table's size is skipped and iteration continues, visible in
`elfEntrySpec`), and every emitted symbol carries storage class 0 and a
value truncated below 2^32. -/
theorem elf_entry_skip_and_truncation (file : List Nat) (p : ElfParts)
    (h : elfParts file = some p) :
    parse_elf file = some ((List.range p.count).filterMap
      (elfEntrySpec file p.symOff p.strtab)) ∧
    ∀ s ∈ (List.range p.count).filterMap
        (elfEntrySpec file p.symOff p.strtab),
      s.storageClass = 0 ∧ s.value < 4294967296 := by
  constructor
  · unfold parse_elf
    rw [h, Option.map_some', elfLoop_eq_filterMap, ← List.range_eq_range']
  · intro s hs
    obtain ⟨j, _, hj⟩ := List.mem_filterMap.mp hs
    exact ⟨(elfEntrySpec_fields hj).2.1, (elfEntrySpec_fields hj).2.2⟩

/-- C6 witness: the theorem applied to the concrete ELF object. -/
theorem elf_entry_skip_and_truncation_witness :
    elfParts elfFileA = some ⟨192, 1, elfStrtabA⟩ ∧
    parse_elf elfFileA = some ((List.range 1).filterMap
      (elfEntrySpec elfFileA 192 elfStrtabA)) :=
  ⟨by decide,
    (elf_entry_skip_and_truncation elfFileA ⟨192, 1, elfStrtabA⟩
      (by decide)).1⟩

/-- C10: no COFF output symbol ever carries a `?offset=<n>` placeholder
name — every output name passes the `_binary_` filter, which no
placeholder does (it starts with `?`), so each output name was genuinely
resolved. -/
theorem no_placeholder_in_output (file : List Nat) (syms : List SymRec)
    (h : parse_coff file = some syms) :
    ∀ s ∈ syms, s.name.take 8 = markerBytes ∧
      ∀ n, s.name ≠ placeholderName n := by
  intro s hs
  have hm := parse_coff_marker h s hs
  refine ⟨hm, fun n hpn => ?_⟩
  rw [hpn, placeholderName_take8] at hm
  exact absurd hm (by decide)

/-- C10 witness: the theorem applied to `coffFileA`, whose second record's
bad offset produces a placeholder name that indeed never surfaces. -/
theorem no_placeholder_in_output_witness :
    parse_coff coffFileA = some [⟨markerBytes, 7, 1, 6⟩] ∧
    ∀ s ∈ [(⟨markerBytes, 7, 1, 6⟩ : SymRec)],
      s.name.take 8 = markerBytes ∧ ∀ n, s.name ≠ placeholderName n :=
  ⟨by decide, no_placeholder_in_output coffFileA _ (by decide)⟩

/-- C7: the COFF decoder fails the whole file — no symbols — whenever the
header's declared symbol count exceeds 1,000,000 or the declared
symbol-table pointer lies at or beyond the file's end (file sizes below
2^32, where the C `(uint32_t)fileSize` cast is the identity). -/
theorem coff_header_sanity_rejects (file : List Nat)
    (hlen : file.length < 4294967296)
    (h : 1000000 < rd32 file 12 ∨ file.length ≤ rd32 file 8) :
    parse_coff file = none := by
  suffices hp : coffParts file = none by simp [parse_coff, hp]
  unfold coffParts
  split_ifs with h1 h2 h3 h4 h5
  · rfl
  · rfl
  · rfl
  · rfl
  · rfl
  · exfalso
    rw [Nat.mod_eq_of_lt hlen] at h5
    omega

/-- C7 witness: a header declaring 2,000,000 symbols is rejected. -/
theorem coff_header_sanity_rejects_witness :
    coffBadHeader.length < 4294967296 ∧ 1000000 < rd32 coffBadHeader 12 ∧
      parse_coff coffBadHeader = none :=
  ⟨by decide, by decide,
    coff_header_sanity_rejects coffBadHeader (by decide)
      (Or.inl (by decide))⟩

/-- C3 counterexample: cutting `coffFileA` off at byte 45 — in the middle
of its second 18-byte symbol record — makes `parse_coff` return a hard
failure (`none`), not the claimed successful partial result holding the
one symbol read before the cut (which the full file does deliver). -/
theorem truncated_coff_hard_failure :
    parse_coff coffFileA = some [⟨markerBytes, 7, 1, 6⟩] ∧
    parse_coff (coffFileA.take 45) = none := by
  exact ⟨by decide, by decide⟩

/-- C3 (amended): a COFF file whose header checks pass but that is cut off
before the end of its declared symbol table (so that the 4 string-table
length bytes at `PointerToSymbolTable + NumberOfSymbols*18` cannot be
read) fails the whole decode with no symbols: the string-table-size read
happens before the symbol loop, so the loop's short-read break is never
reached for a truncated file. -/
theorem truncated_coff_returns_none (file : List Nat)
    (h20 : ¬ file.length < 20)
    (hmag : file.take 4 ≠ elfMagic)
    (hn : rd32 file 12 ≤ 1000000)
    (hp : rd32 file 8 < file.length)
    (hlen : file.length < 4294967296)
    (hnw : rd32 file 8 + rd32 file 12 * 18 < 4294967296)
    (hcut : file.length < rd32 file 8 + rd32 file 12 * 18 + 4) :
    parse_coff file = none := by
  suffices hq : coffParts file = none by simp [parse_coff, hq]
  unfold coffParts
  rw [if_neg (by omega), if_neg hmag, if_neg h20, if_neg (by omega),
    if_neg (by rw [Nat.mod_eq_of_lt hlen]; omega)]
  have hnone : readAt file
      ((rd32 file 8 + rd32 file 12 * 18) % 4294967296) 4 = none := by
    rw [readAt_eq_none_iff, Nat.mod_eq_of_lt hnw]
    omega
  rw [hnone]

/-- C3 witness: the amended theorem applied to the concrete cut file. -/
theorem truncated_coff_returns_none_witness :
    (coffFileA.take 45).length < rd32 (coffFileA.take 45) 8 +
      rd32 (coffFileA.take 45) 12 * 18 + 4 ∧
    parse_coff (coffFileA.take 45) = none :=
  ⟨by decide,
    truncated_coff_returns_none (coffFileA.take 45) (by decide) (by decide)
      (by decide) (by decide) (by decide) (by decide) (by decide)⟩

/-- C8: a file starting with the 4 ELF magic bytes is routed to the ELF
decoder only (and the COFF decoder itself rejects it with a failure),
while a file not starting with them is never routed to the ELF decoder
(and the ELF decoder itself rejects it). -/
theorem format_routing (file : List Nat) :
    (file.take 4 = elfMagic →
      detectRoute file = Route.toElf ∧ parse_coff file = none) ∧
    (file.take 4 ≠ elfMagic →
      detectRoute file ≠ Route.toElf ∧ parse_elf file = none) := by
  constructor
  · intro hm
    have hlen : 4 ≤ file.length := by
      have hc := congrArg List.length hm
      rw [List.length_take] at hc
      simp [elfMagic] at hc
      omega
    constructor
    · unfold detectRoute
      rw [if_neg (by omega), if_pos hm]
    · suffices hq : coffParts file = none by simp [parse_coff, hq]
      unfold coffParts
      rw [if_neg (by omega), if_pos hm]
  · intro hm
    constructor
    · intro hd
      unfold detectRoute at hd
      split_ifs at hd
    · suffices hq : elfParts file = none by simp [parse_elf, hq]
      unfold elfParts
      cases hre : readAt file 0 64 with
      | none => rfl
      | some eh =>
        have h4 : eh.take 4 = file.take 4 := by
          unfold readAt at hre
          split at hre
          · cases hre
            rw [List.drop_zero, List.take_take]
            norm_num
          · cases hre
        dsimp only
        rw [if_pos (show eh.take 4 ≠ elfMagic by rw [h4]; exact hm)]

/-- C8 witness: the theorem applied to the concrete ELF and COFF files. -/
theorem format_routing_witness :
    (detectRoute elfFileA = Route.toElf ∧ parse_coff elfFileA = none) ∧
    (detectRoute coffFileA ≠ Route.toElf ∧ parse_elf coffFileA = none) :=
  ⟨(format_routing elfFileA).1 (by decide),
    (format_routing coffFileA).2 (by decide)⟩

/-- C9: a long-named COFF record whose string-table offset lies at or
beyond the declared string-table length — or whose string table is absent
because the declared length is at most 4 — resolves to the synthesized
placeholder name `?offset=<n>`, and the symbol loop proceeds to the next
record (the placeholder fails the marker filter) instead of the file
failing. -/
theorem coff_placeholder_continues (file : List Nat) (p : CoffParts)
    (fuel i : Nat) (b : List Nat)
    (hp : coffParts file = some p)
    (hr : readAt file (p.ptr + i * 18) 18 = some b)
    (hi : i < p.nsym)
    (hz : rd32 b 0 = 0)
    (hbad : p.strSize ≤ 4 ∨ p.strSize ≤ rd32 b 4) :
    resolveCoffName p.strTable p.strSize b = placeholderName (rd32 b 4) ∧
    coffLoop file p.strTable p.strSize p.ptr p.nsym (fuel + 1) i =
      coffLoop file p.strTable p.strSize p.ptr p.nsym fuel
        (i + 1 + byteAt b 17) := by
  have hres : resolveCoffName p.strTable p.strSize b
      = placeholderName (rd32 b 4) := by
    unfold resolveCoffName
    rw [if_pos hz]
    cases hst : p.strTable with
    | none => rfl
    | some st =>
      have h4 := coffParts_strTable_size hp hst
      dsimp only
      rw [if_neg (by omega)]
  refine ⟨hres, ?_⟩
  rw [coffLoop]
  rw [if_neg (by omega), hr]
  dsimp only
  simp only [hres, placeholderName_take8]
  rw [if_neg (by decide)]

/-- C9 witness: the out-of-range offset 999 in `coffFileA`'s second record
yields `?offset=999` and the loop steps on. -/
theorem coff_placeholder_continues_witness :
    coffParts coffFileA = some coffPartsOfA ∧
    resolveCoffName coffPartsOfA.strTable coffPartsOfA.strSize coffRecBad =
      placeholderName 999 ∧
    coffLoop coffFileA coffPartsOfA.strTable coffPartsOfA.strSize
      coffPartsOfA.ptr coffPartsOfA.nsym 1 1 =
      coffLoop coffFileA coffPartsOfA.strTable coffPartsOfA.strSize
        coffPartsOfA.ptr coffPartsOfA.nsym 0 2 := by
  have h := coff_placeholder_continues coffFileA coffPartsOfA 0 1 coffRecBad
    (by decide) (by decide) (by decide) (by decide) (Or.inr (by decide))
  exact ⟨by decide, h.1, h.2⟩
